import Mathlib

/-!
Verification of the core of a multi-server queueing simulator.

The program builds a cumulative-probability table for a Poisson law
(`cpCalc`), samples integer inter-arrival gaps from it
(`generateInterarrivals`), runs an event-driven multi-server queue
simulation (`simulateQueue`), and computes closed-form theoretical
metrics (`calculateMM1Params`, `calculateMultiServerParams`,
`calculateMMcParams`, `calculateMGCParams`).

JavaScript numbers are modelled by real numbers; the pseudorandom
generator is modelled by an explicit stream of uniform draws passed as
an argument.
-/

namespace Simulation

/-- `roundTo value 2` from the source: `Math.round(value * 100) / 100`.
The core only ever calls `roundTo` with two decimals, so the precision
is fixed here.  `Math.round x` is `⌊x + 1/2⌋`, which is Mathlib's
`round`. -/
noncomputable def roundTo (value : ℝ) : ℝ := (round (value * 100) : ℤ) / 100

/-- A real number representable with two decimal digits (an integer
number of hundredths).  Every quantity the simulation pipeline feeds to
`simulateQueue` has this shape: inter-arrival gaps are integers and
service times are outputs of `roundTo`. -/
def Cent (x : ℝ) : Prop := ∃ n : ℤ, x = (n : ℝ) / 100

/-- One term of the Poisson probability mass function with rate `m`,
exactly the expression `Math.exp(-m) * Math.pow(m, k) / factorial(k)`
computed inside `cpCalc`. -/
noncomputable def poissonTerm (m : ℝ) (k : ℕ) : ℝ :=
  Real.exp (-m) * m ^ k / (Nat.factorial k : ℝ)

/-- Modelled from the spec: `P(X < k)` for a Poisson law with rate `m`,
i.e. the sum of the first `k` terms of the Poisson mass function.  Used
to compare the table built by the code with the table the specification
describes. -/
noncomputable def poissonBelow (m : ℝ) (k : ℕ) : ℝ :=
  ∑ i ∈ Finset.range k, poissonTerm m i

/-- The `while (cp < 0.9999 && count < 200)` loop of `cpCalc`, as a
recursion on the loop counter.  The accumulator `cp` is the running
cumulative probability; each iteration pushes `cp` on the lookup list
and `min (cp + calc) 1` on the cumulative list. -/
noncomputable def cpCalcGo (arrivalMean : ℝ) (cp : ℝ) (count : ℕ) :
    List ℝ × List ℝ :=
  if h : cp < 0.9999 ∧ count < 200 then
    let term := poissonTerm arrivalMean count
    let next := cpCalcGo arrivalMean (cp + term) (count + 1)
    (min (cp + term) 1 :: next.1, cp :: next.2)
  else ([], [])
termination_by 200 - count
decreasing_by omega

/-- `cpCalc(arrivalMean)` from the source: returns the pair
`[cparray, cplookuparray]` of cumulative upper bounds and lower
bounds. -/
noncomputable def cpCalc (arrivalMean : ℝ) : List ℝ × List ℝ :=
  cpCalcGo arrivalMean 0 0

/-- Result record of `calculateMM1Params`. -/
structure MM1Params where
  rho : ℝ
  lq : ℝ
  wq : ℝ
  ws : ℝ
  ls : ℝ

/-- `calculateMM1Params(lambda, mu)` from the source. -/
noncomputable def calculateMM1Params (lambda mu : ℝ) : MM1Params :=
  let rho := lambda / mu
  let lq := rho ^ 2 / (1 - rho)
  let wq := lq / lambda
  let ws := wq + 1 / mu
  let ls := lambda * ws
  { rho := rho, lq := lq, wq := wq, ws := ws, ls := ls }

/-- Result record of the multi-server Erlang-C calculators. -/
structure MMcParams where
  rho : ℝ
  p0 : ℝ
  lq : ℝ
  wq : ℝ
  ws : ℝ
  ls : ℝ

/-- The `for (let n = 0; n < c; n++) sum += (lambda/mu)^n / factorial(n)`
loop of the Erlang-C calculators, as a left fold over `0..c-1`. -/
noncomputable def erlangSumLoop (r : ℝ) (c : ℕ) : ℝ :=
  (List.range c).foldl (fun acc n => acc + r ^ n / (Nat.factorial n : ℝ)) 0

/-- `calculateMultiServerParams(lambda, mu, c)` from `index.js`. -/
noncomputable def calculateMultiServerParams (lambda mu : ℝ) (c : ℕ) :
    MMcParams :=
  let sum := erlangSumLoop (lambda / mu) c
  let rho := lambda / (c * mu)
  let p0 := 1 / (sum + ((lambda / mu) ^ c) / ((Nat.factorial c : ℝ) * (1 - rho)))
  let lq := (p0 * ((lambda / mu) ^ c) * rho) / ((Nat.factorial c : ℝ) * ((1 - rho) ^ 2))
  let wq := lq / lambda
  let ws := wq + 1 / mu
  let ls := lambda * ws
  { rho := rho, p0 := p0, lq := lq, wq := wq, ws := ws, ls := ls }

/-- `calculateMMcParams(lambda, mu, c)` from the second source variant;
its body is identical to `calculateMultiServerParams`. -/
noncomputable def calculateMMcParams (lambda mu : ℝ) (c : ℕ) : MMcParams :=
  let sum := erlangSumLoop (lambda / mu) c
  let rho := lambda / (c * mu)
  let p0 := 1 / (sum + ((lambda / mu) ^ c) / ((Nat.factorial c : ℝ) * (1 - rho)))
  let lq := (p0 * ((lambda / mu) ^ c) * rho) / ((Nat.factorial c : ℝ) * ((1 - rho) ^ 2))
  let wq := lq / lambda
  let ws := wq + 1 / mu
  let ls := lambda * ws
  { rho := rho, p0 := p0, lq := lq, wq := wq, ws := ws, ls := ls }

/-- Result record of the M/G/c calculator. -/
structure MGcParams where
  rho : ℝ
  lq : ℝ
  wq : ℝ
  ws : ℝ
  ls : ℝ
  csSquared : ℝ

/-- `calculateMGCParams(lambda, serviceMeanTime, c, shapeK)` from the
second source variant: the Allen-Cunneen approximation built on top of
`calculateMMcParams`. -/
noncomputable def calculateMGCParams (lambda serviceMeanTime : ℝ) (c : ℕ)
    (shapeK : ℝ) : MGcParams :=
  let mu := 1 / serviceMeanTime
  let rho := lambda / (c * mu)
  let csSquared := 1 / shapeK
  let mmParams := calculateMMcParams lambda mu c
  let wq := mmParams.wq * ((1 + csSquared) / 2)
  let lq := lambda * wq
  let ws := wq + serviceMeanTime
  let ls := lambda * ws
  { rho := rho, lq := lq, wq := wq, ws := ws, ls := ls, csSquared := csSquared }

/-- The table-lookup loop inside `generateInterarrivals`: scan the
lower-bound list `lows` and upper-bound list `ups` in parallel from
index `j`; the first interval `[low, up)` containing the draw `u` yields
the gap `j + 1`; if no interval matches, the gap defaults to `1`. -/
noncomputable def sampleGapAux (u : ℝ) : List ℝ → List ℝ → ℕ → ℝ
  | low :: lows, up :: ups, j =>
    if low ≤ u ∧ u < up then ((j + 1 : ℕ) : ℝ)
    else sampleGapAux u lows ups (j + 1)
  | _, _, _ => 1

/-- One inter-arrival draw against a cumulative table `(ca, cl)`:
`cl` is `cplookuparray` (lower bounds) and `ca` is `cparray` (upper
bounds), exactly as in the `for (let j = 0; ...)` loop of the source. -/
noncomputable def sampleGap (ca cl : List ℝ) (u : ℝ) : ℝ :=
  sampleGapAux u cl ca 0

/-- The `while (totalTime < maxTime)` loop of `generateInterarrivals`:
`totalTime` is the running sum of pushed gaps and `k` indexes the stream
of uniform draws.  Terminates because every sampled gap is at least
`1`. -/
noncomputable def genGaps (ca cl : List ℝ) (us : ℕ → ℝ) (maxTime : ℝ)
    (totalTime : ℝ) (k : ℕ) : List ℝ :=
  if h : totalTime < maxTime then
    let g := sampleGap ca cl (us k)
    g :: genGaps ca cl us maxTime (totalTime + g) (k + 1)
  else []
termination_by (Int.ceil (maxTime - totalTime)).toNat
decreasing_by
  have hone : ∀ (lows ups : List ℝ) (j : ℕ) (u : ℝ),
      (1 : ℝ) ≤ sampleGapAux u lows ups j := by
    intro lows
    induction lows with
    | nil => intro ups j u; simp [sampleGapAux]
    | cons low rest ih =>
      intro ups j u
      cases ups with
      | nil => simp [sampleGapAux]
      | cons up upsr =>
        simp only [sampleGapAux]
        split
        · exact_mod_cast Nat.succ_le_succ (Nat.zero_le j)
        · exact ih upsr (j + 1) u
  have hg : (1 : ℝ) ≤ sampleGap ca cl (us k) := hone cl ca 0 (us k)
  have hle : maxTime - (totalTime + sampleGap ca cl (us k)) ≤
      maxTime - totalTime - 1 := by linarith
  have h1 : Int.ceil (maxTime - (totalTime + sampleGap ca cl (us k))) ≤
      Int.ceil (maxTime - totalTime) - 1 := by
    calc Int.ceil (maxTime - (totalTime + sampleGap ca cl (us k)))
        ≤ Int.ceil (maxTime - totalTime - 1) := Int.ceil_mono hle
      _ = Int.ceil (maxTime - totalTime) - 1 := Int.ceil_sub_one _
  have h2 : (0 : ℤ) < Int.ceil (maxTime - totalTime) :=
    Int.ceil_pos.mpr (by linarith)
  exact (Int.toNat_lt_toNat h2).mpr (by omega)

/-- `generateInterarrivals(mean, maxTime)` from the source, with the
uniform stream `us` made explicit.  The sequence is seeded with `0`
(first arrival at time zero); after the loop, if the accumulated time
overshot the horizon the final gap is popped.  The `catch` fallback of
the source is unreachable in this model because `cpCalc` cannot
throw. -/
noncomputable def generateInterarrivals (mean maxTime : ℝ) (us : ℕ → ℝ) :
    List ℝ :=
  let table := cpCalc mean
  let gaps := genGaps table.1 table.2 us maxTime 0 0
  let interarrivals := (0 : ℝ) :: gaps
  if maxTime < gaps.sum then interarrivals.dropLast else interarrivals

/-- The server-selection scan of `simulateQueue`: starting from the
candidate `(besti, bestv)` (initially server `0` with its end time) and
scanning the remaining end times from index `s`, keep the first
strictly earlier end time.  Mirrors
`for (let s = 1; s < serverCount; s++) if (serverEndTimes[s] < earliestEndTime) ...`. -/
noncomputable def pickServerAux : List ℝ → ℕ → ℕ → ℝ → ℕ × ℝ
  | [], _, besti, bestv => (besti, bestv)
  | v :: rest, s, besti, bestv =>
    if v < bestv then pickServerAux rest (s + 1) s v
    else pickServerAux rest (s + 1) besti bestv

/-- The chosen server (0-based index) and its next-available time for a
list of server end times. -/
noncomputable def pickServer (ends : List ℝ) : ℕ × ℝ :=
  pickServerAux ends.tail 1 0 (ends.headD 0)

/-- One per-customer record produced by the main loop of
`simulateQueue`.  `start`, `finish`, `wait`, `turnaround` and `response`
carry the values pushed on the output arrays (i.e. after `roundTo`);
`server` is the 1-based assigned server; `qlen` is the queue-length
sample. -/
structure Cust where
  arrival : ℝ
  service : ℝ
  start : ℝ
  finish : ℝ
  wait : ℝ
  turnaround : ℝ
  response : ℝ
  server : ℕ
  qlen : ℝ

/-- One iteration of the main loop of `simulateQueue`: dispatch the
customer with the given arrival and service time against the current
server end times, and return the produced record together with the
updated end times.  `ends` always has length `serverCount`, so the
queue-length sample subtracts `ends.length`. -/
noncomputable def simStep (ends : List ℝ) (arrival service : ℝ) :
    Cust × List ℝ :=
  let p := pickServer ends
  let startTime := max arrival p.2
  let endTime := startTime + service
  let waitTime := max 0 (startTime - arrival)
  let turnaroundTime := endTime - arrival
  let queued := (ends.filter fun e => decide (arrival < e)).length
  let currentQueueLength := max 0 ((queued : ℝ) - (ends.length : ℝ))
  ({ arrival := arrival
     service := service
     start := roundTo startTime
     finish := roundTo endTime
     wait := roundTo waitTime
     turnaround := roundTo turnaroundTime
     response := roundTo (waitTime + service)
     server := p.1 + 1
     qlen := currentQueueLength },
   ends.set p.1 endTime)

/-- The main loop of `simulateQueue` over the (arrival, service) pairs,
threading the server end times. -/
noncomputable def simLoop (ends : List ℝ) : List (ℝ × ℝ) → List Cust
  | [] => []
  | (a, sv) :: rest =>
    let r := simStep ends a sv
    r.1 :: simLoop r.2 rest

/-- Helper for the absolute-arrival-time prefix sums: `t` is the raw
running time, each pushed entry is `roundTo` of the new running time. -/
noncomputable def arrivalsAux (t : ℝ) : List ℝ → List ℝ
  | [] => []
  | g :: gs => roundTo (t + g) :: arrivalsAux (t + g) gs

/-- The `arrivalTimes` array of `simulateQueue`: seeded with `0`, then
the rounded cumulative sums of the inter-arrival gaps from index 1
onward. -/
noncomputable def arrivalTimesOf (interarrivals : List ℝ) : List ℝ :=
  (0 : ℝ) :: arrivalsAux 0 interarrivals.tail

/-- The list of customer records produced by one run of
`simulateQueue`: the main loop applied to the arrival times paired with
the service times, starting from `serverCount` idle servers.  The
pipeline always supplies one service time per inter-arrival entry, so
pairing by `zip` agrees with the source's indexed access
`serviceTimes[i]` on every input the program constructs. -/
noncomputable def simCusts (interarrivals serviceTimes : List ℝ)
    (serverCount : ℕ) : List Cust :=
  simLoop (List.replicate serverCount 0)
    ((arrivalTimesOf interarrivals).zip serviceTimes)

/-- `Math.max(...endTimes)` over a nonempty list (the list is always
nonempty in the program since `arrivalTimes` starts with `0`). -/
noncomputable def maxOf : List ℝ → ℝ
  | [] => 0
  | x :: xs => xs.foldl max x

/-- The record returned by `simulateQueue`. -/
structure SimResult where
  interarrivals : List ℝ
  arrivalTimes : List ℝ
  serviceTimes : List ℝ
  startTimes : List ℝ
  endTimes : List ℝ
  waitTimes : List ℝ
  turnaroundTimes : List ℝ
  responseTimes : List ℝ
  servers : List ℕ
  queueLengths : List ℝ
  totalCustomers : ℕ
  totalTime : ℝ

/-- `simulateQueue(interarrivals, serviceTimes, serverCount)` from the
source. -/
noncomputable def simulateQueue (interarrivals serviceTimes : List ℝ)
    (serverCount : ℕ) : SimResult :=
  let arrivals := arrivalTimesOf interarrivals
  let custs := simCusts interarrivals serviceTimes serverCount
  { interarrivals := interarrivals
    arrivalTimes := arrivals
    serviceTimes := serviceTimes
    startTimes := custs.map Cust.start
    endTimes := custs.map Cust.finish
    waitTimes := custs.map Cust.wait
    turnaroundTimes := custs.map Cust.turnaround
    responseTimes := custs.map Cust.response
    servers := custs.map Cust.server
    queueLengths := custs.map Cust.qlen
    totalCustomers := arrivals.length
    totalTime := maxOf (custs.map Cust.finish) }

/-! ### Facts about `roundTo` and two-decimal values -/

lemma cent_zero : Cent 0 := ⟨0, by norm_num⟩

lemma cent_natCast (n : ℕ) : Cent (n : ℝ) := ⟨100 * n, by push_cast; ring⟩

lemma cent_add {a b : ℝ} (ha : Cent a) (hb : Cent b) : Cent (a + b) := by
  obtain ⟨m, rfl⟩ := ha
  obtain ⟨n, rfl⟩ := hb
  exact ⟨m + n, by push_cast; ring⟩

lemma cent_sub {a b : ℝ} (ha : Cent a) (hb : Cent b) : Cent (a - b) := by
  obtain ⟨m, rfl⟩ := ha
  obtain ⟨n, rfl⟩ := hb
  exact ⟨m - n, by push_cast; ring⟩

lemma cent_max {a b : ℝ} (ha : Cent a) (hb : Cent b) : Cent (max a b) := by
  rcases max_cases a b with ⟨h, _⟩ | ⟨h, _⟩ <;> rw [h] <;> assumption

lemma roundTo_cent {x : ℝ} (hx : Cent x) : roundTo x = x := by
  obtain ⟨n, rfl⟩ := hx
  have h : (n : ℝ) / 100 * 100 = (n : ℝ) := by field_simp
  rw [roundTo, h, round_intCast]

lemma cent_roundTo (x : ℝ) : Cent (roundTo x) := ⟨round (x * 100), rfl⟩

lemma roundTo_mono {x y : ℝ} (h : x ≤ y) : roundTo x ≤ roundTo y := by
  unfold roundTo
  have hr : round (x * 100) ≤ round (y * 100) := by
    rw [round_eq, round_eq]
    exact Int.floor_mono (by linarith)
  have hr2 : ((round (x * 100) : ℤ) : ℝ) ≤ ((round (y * 100) : ℤ) : ℝ) := by
    exact_mod_cast hr
  linarith

lemma roundTo_zero : roundTo 0 = 0 := roundTo_cent cent_zero

lemma roundTo_nonneg {x : ℝ} (h : 0 ≤ x) : 0 ≤ roundTo x := by
  have := roundTo_mono h
  rwa [roundTo_zero] at this

/-! ### Facts about the gap sampler -/

lemma one_le_sampleGapAux (u : ℝ) :
    ∀ (lows ups : List ℝ) (j : ℕ), (1 : ℝ) ≤ sampleGapAux u lows ups j := by
  intro lows
  induction lows with
  | nil => intro ups j; simp [sampleGapAux]
  | cons low rest ih =>
    intro ups j
    cases ups with
    | nil => simp [sampleGapAux]
    | cons up upsr =>
      simp only [sampleGapAux]
      split
      · exact_mod_cast Nat.succ_le_succ (Nat.zero_le j)
      · exact ih upsr (j + 1)

lemma one_le_sampleGap (ca cl : List ℝ) (u : ℝ) : (1 : ℝ) ≤ sampleGap ca cl u :=
  one_le_sampleGapAux u cl ca 0

lemma sampleGapAux_isNat (u : ℝ) :
    ∀ (lows ups : List ℝ) (j : ℕ), ∃ n : ℕ, sampleGapAux u lows ups j = (n : ℝ) := by
  intro lows
  induction lows with
  | nil => intro ups j; exact ⟨1, by simp [sampleGapAux]⟩
  | cons low rest ih =>
    intro ups j
    cases ups with
    | nil => exact ⟨1, by simp [sampleGapAux]⟩
    | cons up upsr =>
      simp only [sampleGapAux]
      split
      · exact ⟨j + 1, by push_cast; ring⟩
      · exact ih upsr (j + 1)

lemma sampleGap_isNat (ca cl : List ℝ) (u : ℝ) :
    ∃ n : ℕ, sampleGap ca cl u = (n : ℝ) :=
  sampleGapAux_isNat u cl ca 0

lemma sampleGapAux_default (u : ℝ) :
    ∀ (lows ups : List ℝ) (j : ℕ),
      (∀ i, i < lows.length → i < ups.length →
        ¬ (lows.getD i 0 ≤ u ∧ u < ups.getD i 0)) →
      sampleGapAux u lows ups j = 1 := by
  intro lows
  induction lows with
  | nil => intro ups j _; simp [sampleGapAux]
  | cons low rest ih =>
    intro ups j hno
    cases ups with
    | nil => simp [sampleGapAux]
    | cons up upsr =>
      simp only [sampleGapAux]
      rw [if_neg]
      · exact ih upsr (j + 1) fun i h1 h2 => by
          have := hno (i + 1) (by simpa using Nat.succ_lt_succ h1)
            (by simpa using Nat.succ_lt_succ h2)
          simpa using this
      · have := hno 0 (by simp) (by simp)
        simpa using this

/-! ### Facts about the interarrival loop -/

lemma genGaps_of_lt {ca cl : List ℝ} {us : ℕ → ℝ} {maxTime t : ℝ} {k : ℕ}
    (h : t < maxTime) :
    genGaps ca cl us maxTime t k =
      sampleGap ca cl (us k) ::
        genGaps ca cl us maxTime (t + sampleGap ca cl (us k)) (k + 1) := by
  rw [genGaps]
  simp [h]

lemma genGaps_of_not_lt {ca cl : List ℝ} {us : ℕ → ℝ} {maxTime t : ℝ} {k : ℕ}
    (h : ¬ t < maxTime) : genGaps ca cl us maxTime t k = [] := by
  rw [genGaps]
  simp [h]

lemma genGaps_measure_lt (ca cl : List ℝ) {maxTime t : ℝ} (u : ℝ)
    (h : t < maxTime) :
    (Int.ceil (maxTime - (t + sampleGap ca cl u))).toNat <
      (Int.ceil (maxTime - t)).toNat := by
  have hg : (1 : ℝ) ≤ sampleGap ca cl u := one_le_sampleGap ca cl u
  have h1 : Int.ceil (maxTime - (t + sampleGap ca cl u)) ≤
      Int.ceil (maxTime - t) - 1 := by
    calc Int.ceil (maxTime - (t + sampleGap ca cl u))
        ≤ Int.ceil (maxTime - t - 1) := Int.ceil_mono (by linarith)
      _ = Int.ceil (maxTime - t) - 1 := Int.ceil_sub_one _
  have h2 : (0 : ℤ) < Int.ceil (maxTime - t) := Int.ceil_pos.mpr (by linarith)
  exact (Int.toNat_lt_toNat h2).mpr (by omega)

lemma genGaps_spec (ca cl : List ℝ) (us : ℕ → ℝ) (maxTime : ℝ) :
    ∀ (N : ℕ) (t : ℝ) (k : ℕ), (Int.ceil (maxTime - t)).toNat ≤ N →
      (∀ g ∈ genGaps ca cl us maxTime t k, 1 ≤ g ∧ ∃ n : ℕ, g = (n : ℝ)) ∧
      (genGaps ca cl us maxTime t k = [] ∨
        t + (genGaps ca cl us maxTime t k).dropLast.sum < maxTime) := by
  intro N
  induction N with
  | zero =>
    intro t k hN
    have ht : ¬ t < maxTime := by
      intro hlt
      have : (0 : ℤ) < Int.ceil (maxTime - t) := Int.ceil_pos.mpr (by linarith)
      omega
    rw [genGaps_of_not_lt ht]
    exact ⟨by simp, Or.inl rfl⟩
  | succ M ih =>
    intro t k hN
    by_cases ht : t < maxTime
    · rw [genGaps_of_lt ht]
      set g := sampleGap ca cl (us k) with hgdef
      have hmeas : (Int.ceil (maxTime - (t + g))).toNat ≤ M := by
        have hlt := genGaps_measure_lt ca cl (us k) ht
        rw [← hgdef] at hlt
        omega
      obtain ⟨ihmem, ihsum⟩ := ih (t + g) (k + 1) hmeas
      constructor
      · intro x hx
        rcases List.mem_cons.mp hx with rfl | hx
        · exact ⟨one_le_sampleGap ca cl (us k), sampleGap_isNat ca cl (us k)⟩
        · exact ihmem x hx
      · right
        by_cases hnil : genGaps ca cl us maxTime (t + g) (k + 1) = []
        · rw [hnil]
          simpa using ht
        · rw [List.dropLast_cons_of_ne_nil hnil]
          rcases ihsum with hc | hsum
          · exact absurd hc hnil
          · simp only [List.sum_cons]
            linarith
    · rw [genGaps_of_not_lt ht]
      exact ⟨by simp, Or.inl rfl⟩

/-! ### The server-selection scan -/

lemma pickServerAux_spec (es : List ℝ) :
    ∀ (l : List ℝ) (s besti : ℕ) (bestv : ℝ),
      s + l.length = es.length → l = es.drop s → besti < s →
      bestv = es.getD besti 0 →
      (∀ j, j < s → bestv ≤ es.getD j 0) →
      (∀ j, j < besti → bestv < es.getD j 0) →
      (pickServerAux l s besti bestv).1 < es.length ∧
      (pickServerAux l s besti bestv).2 =
        es.getD (pickServerAux l s besti bestv).1 0 ∧
      (∀ j, j < es.length → (pickServerAux l s besti bestv).2 ≤ es.getD j 0) ∧
      (∀ j, j < (pickServerAux l s besti bestv).1 →
        (pickServerAux l s besti bestv).2 < es.getD j 0) := by
  intro l
  induction l with
  | nil =>
    intro s besti bestv hlen hdrop hbi hbv hle hlt
    simp only [pickServerAux]
    simp only [List.length_nil, Nat.add_zero] at hlen
    exact ⟨by omega, hbv, fun j hj => hle j (by omega), hlt⟩
  | cons v rest ih =>
    intro s besti bestv hlen hdrop hbi hbv hle hlt
    have hs : s < es.length := by
      simp only [List.length_cons] at hlen
      omega
    have hget := List.drop_eq_getElem_cons hs
    rw [hget] at hdrop
    have hv : v = es.getD s 0 := by
      rw [List.getD_eq_getElem es 0 hs]
      exact (List.cons.injEq _ _ _ _ ▸ hdrop).1
    have hrest : rest = es.drop (s + 1) := (List.cons.injEq _ _ _ _ ▸ hdrop).2
    simp only [pickServerAux]
    split
    · rename_i hlt2
      apply ih (s + 1) s v
      · simp only [List.length_cons] at hlen; omega
      · exact hrest
      · omega
      · exact hv
      · intro j hj
        rcases Nat.lt_succ_iff_lt_or_eq.mp hj with hj | rfl
        · exact le_of_lt (lt_of_lt_of_le hlt2 (hle j hj))
        · exact le_of_eq hv
      · intro j hj
        exact lt_of_lt_of_le hlt2 (hle j hj)
    · rename_i hnlt
      apply ih (s + 1) besti bestv
      · simp only [List.length_cons] at hlen; omega
      · exact hrest
      · omega
      · exact hbv
      · intro j hj
        rcases Nat.lt_succ_iff_lt_or_eq.mp hj with hj | rfl
        · exact hle j hj
        · rw [← hv]; exact le_of_not_lt hnlt
      · exact hlt

lemma pickServer_spec (ends : List ℝ) (hne : ends ≠ []) :
    (pickServer ends).1 < ends.length ∧
    (pickServer ends).2 = ends.getD (pickServer ends).1 0 ∧
    (∀ j, j < ends.length → (pickServer ends).2 ≤ ends.getD j 0) ∧
    (∀ j, j < (pickServer ends).1 →
      (pickServer ends).2 < ends.getD j 0) := by
  obtain ⟨x, xs, rfl⟩ := List.exists_cons_of_ne_nil hne
  unfold pickServer
  apply pickServerAux_spec (x :: xs) (x :: xs).tail 1 0 ((x :: xs).headD 0)
  · simp
    omega
  · simp
  · omega
  · simp
  · intro j hj
    interval_cases j
    simp
  · intro j hj
    omega

/-! ### The main simulation loop invariant -/

lemma simLoop_spec :
    ∀ (pairs : List (ℝ × ℝ)) (ends : List ℝ),
      ends ≠ [] →
      (∀ e ∈ ends, Cent e) →
      (∀ p ∈ pairs, Cent p.1 ∧ Cent p.2 ∧ 0 ≤ p.2) →
      (∀ r ∈ simLoop ends pairs,
        (r.finish = r.start + r.service ∧
         r.arrival ≤ r.start ∧
         0 ≤ r.wait ∧
         r.turnaround = r.wait + r.service ∧
         r.response = r.wait + r.service ∧
         1 ≤ r.server ∧ r.server ≤ ends.length ∧
         Cent r.start ∧ Cent r.finish) ∧
        ends.getD (r.server - 1) 0 ≤ r.start) ∧
      List.Pairwise (fun a b => a.server = b.server → a.finish ≤ b.start)
        (simLoop ends pairs) := by
  intro pairs
  induction pairs with
  | nil =>
    intro ends hne hce hps
    simp [simLoop]
  | cons p rest ih =>
    intro ends hne hce hps
    obtain ⟨a, sv⟩ := p
    have hpa : Cent a := (hps (a, sv) (by simp)).1
    have hpsv : Cent sv := (hps (a, sv) (by simp)).2.1
    have hsv0 : 0 ≤ sv := (hps (a, sv) (by simp)).2.2
    obtain ⟨hidx, hval, hmin, hstrict⟩ := pickServer_spec ends hne
    have hwc : Cent (pickServer ends).2 := by
      rw [hval, List.getD_eq_getElem ends 0 hidx]
      exact hce _ (List.getElem_mem hidx)
    have hstartc : Cent (max a (pickServer ends).2) := cent_max hpa hwc
    have hendc : Cent (max a (pickServer ends).2 + sv) := cent_add hstartc hpsv
    have hwaitc : Cent (max 0 (max a (pickServer ends).2 - a)) :=
      cent_max cent_zero (cent_sub hstartc hpa)
    have hunfold : simLoop ends ((a, sv) :: rest) =
        (simStep ends a sv).1 :: simLoop (simStep ends a sv).2 rest := rfl
    have hr0start : (simStep ends a sv).1.start = max a (pickServer ends).2 :=
      roundTo_cent hstartc
    have hr0finish : (simStep ends a sv).1.finish =
        max a (pickServer ends).2 + sv := roundTo_cent hendc
    have hr0wait : (simStep ends a sv).1.wait =
        max 0 (max a (pickServer ends).2 - a) := roundTo_cent hwaitc
    have hr0turn : (simStep ends a sv).1.turnaround =
        max a (pickServer ends).2 + sv - a := roundTo_cent (cent_sub hendc hpa)
    have hr0resp : (simStep ends a sv).1.response =
        max 0 (max a (pickServer ends).2 - a) + sv :=
      roundTo_cent (cent_add hwaitc hpsv)
    have hr0server : (simStep ends a sv).1.server = (pickServer ends).1 + 1 := rfl
    have hr0arrival : (simStep ends a sv).1.arrival = a := rfl
    have hr0service : (simStep ends a sv).1.service = sv := rfl
    have hends2 : (simStep ends a sv).2 =
        ends.set (pickServer ends).1 (max a (pickServer ends).2 + sv) := rfl
    have hlen2 : (simStep ends a sv).2.length = ends.length := by
      rw [hends2]; exact List.length_set ..
    have hne2 : (simStep ends a sv).2 ≠ [] := by
      intro hc
      have := hlen2
      rw [hc] at this
      simp at this
      exact hne (List.eq_nil_of_length_eq_zero this.symm)
    have hce2 : ∀ e ∈ (simStep ends a sv).2, Cent e := by
      intro e hmem
      rw [hends2] at hmem
      rcases List.mem_or_eq_of_mem_set hmem with hmem | rfl
      · exact hce e hmem
      · exact hendc
    have hgetset : (simStep ends a sv).2.getD (pickServer ends).1 0 =
        max a (pickServer ends).2 + sv := by
      rw [hends2]
      rw [List.getD_eq_getElem _ 0
        (by rw [List.length_set]; exact hidx)]
      exact List.getElem_set_self _
    have hmono : ∀ j, j < ends.length →
        ends.getD j 0 ≤ (simStep ends a sv).2.getD j 0 := by
      intro j hj
      by_cases hji : j = (pickServer ends).1
      · subst hji
        rw [hgetset, ← hval]
        calc (pickServer ends).2 ≤ max a (pickServer ends).2 := le_max_right _ _
          _ ≤ max a (pickServer ends).2 + sv := by linarith
      · rw [hends2]
        have h1 : (ends.set (pickServer ends).1
            (max a (pickServer ends).2 + sv)).getD j 0 = ends.getD j 0 := by
          rw [List.getD_eq_getElem _ 0 (by rw [List.length_set]; exact hj),
            List.getElem_set_ne (fun hc => hji hc.symm),
            ← List.getD_eq_getElem ends 0 hj]
        rw [h1]
    obtain ⟨ihmem, ihpw⟩ := ih (simStep ends a sv).2 hne2 hce2
      (fun q hq => hps q (List.mem_cons_of_mem _ hq))
    have hstart_ge : max a (pickServer ends).2 - a ≥ 0 := by
      have := le_max_left a (pickServer ends).2
      linarith
    have hwait_eq : max 0 (max a (pickServer ends).2 - a) =
        max a (pickServer ends).2 - a := max_eq_right hstart_ge
    rw [hunfold]
    constructor
    · intro r hr
      rcases List.mem_cons.mp hr with rfl | hr
      · refine ⟨⟨?_, ?_, ?_, ?_, ?_, ?_, ?_, ?_, ?_⟩, ?_⟩
        · rw [hr0finish, hr0start, hr0service]
        · rw [hr0arrival, hr0start]; exact le_max_left _ _
        · rw [hr0wait]; exact le_max_left _ _
        · rw [hr0turn, hr0wait, hr0service, hwait_eq]; ring
        · rw [hr0resp, hr0wait, hr0service]
        · rw [hr0server]; omega
        · rw [hr0server]; omega
        · rw [hr0start]; exact hstartc
        · rw [hr0finish]; exact hendc
        · rw [hr0server, hr0start, Nat.add_sub_cancel, ← hval]
          exact le_max_right _ _
      · obtain ⟨⟨q1, q2, q3, q4, q5, q6, q7, q8, q9⟩, q10⟩ := ihmem r hr
        refine ⟨⟨q1, q2, q3, q4, q5, q6, ?_, q8, q9⟩, ?_⟩
        · rw [← hlen2]; exact q7
        · calc ends.getD (r.server - 1) 0
              ≤ (simStep ends a sv).2.getD (r.server - 1) 0 := by
                apply hmono
                omega
            _ ≤ r.start := q10
    · rw [List.pairwise_cons]
      constructor
      · intro b hb hserver
        obtain ⟨⟨_, _, _, _, _, b6, _, _, _⟩, b10⟩ := ihmem b hb
        have hbserver : b.server - 1 = (pickServer ends).1 := by
          rw [← hserver, hr0server]
          omega
        rw [hr0finish]
        calc max a (pickServer ends).2 + sv
            = (simStep ends a sv).2.getD (b.server - 1) 0 := by
              rw [hbserver, hgetset]
          _ ≤ b.start := b10
      · exact ihpw

/-! ### Arrival-time prefix sums -/

lemma arrivalsAux_cent : ∀ (gs : List ℝ) (t : ℝ), ∀ x ∈ arrivalsAux t gs, Cent x := by
  intro gs
  induction gs with
  | nil => intro t x hx; simp [arrivalsAux] at hx
  | cons g rest ih =>
    intro t x hx
    rcases List.mem_cons.mp hx with rfl | hx
    · exact cent_roundTo _
    · exact ih (t + g) x hx

lemma arrivalTimes_cent (inter : List ℝ) :
    ∀ x ∈ arrivalTimesOf inter, Cent x := by
  intro x hx
  rcases List.mem_cons.mp hx with rfl | hx
  · exact cent_zero
  · exact arrivalsAux_cent _ 0 x hx

lemma arrivalsAux_chain : ∀ (gs : List ℝ) (t : ℝ), (∀ g ∈ gs, 0 ≤ g) →
    List.Chain' (· ≤ ·) (roundTo t :: arrivalsAux t gs) := by
  intro gs
  induction gs with
  | nil => intro t _; simp [arrivalsAux]
  | cons g rest ih =>
    intro t hge
    have h1 : roundTo t ≤ roundTo (t + g) :=
      roundTo_mono (by have := hge g (by simp); linarith)
    have h2 := ih (t + g) fun x hx => hge x (List.mem_cons_of_mem _ hx)
    simp only [arrivalsAux]
    exact List.chain'_cons.mpr ⟨h1, h2⟩

/-! ### Queue-length samples -/

lemma simLoop_qlen : ∀ (pairs : List (ℝ × ℝ)) (ends : List ℝ),
    ∀ r ∈ simLoop ends pairs, r.qlen = 0 := by
  intro pairs
  induction pairs with
  | nil => intro ends r hr; simp [simLoop] at hr
  | cons p rest ih =>
    intro ends r hr
    obtain ⟨a, sv⟩ := p
    rcases List.mem_cons.mp hr with rfl | hr
    · show max 0 (((ends.filter fun e => decide (a < e)).length : ℝ) -
        (ends.length : ℝ)) = 0
      apply max_eq_left
      have h1 : (ends.filter fun e => decide (a < e)).length ≤ ends.length :=
        List.length_filter_le _ _
      have h2 : ((ends.filter fun e => decide (a < e)).length : ℝ) ≤
          (ends.length : ℝ) := Nat.cast_le.mpr h1
      linarith
    · exact ih _ r hr

/-! ### The single-server specialization -/

lemma simLoop_single :
    ∀ (pairs : List (ℝ × ℝ)) (e : ℝ), Cent e →
      (∀ p ∈ pairs, Cent p.1 ∧ Cent p.2) →
      (simLoop [e] pairs).map Cust.server = List.replicate pairs.length 1 ∧
      ((simLoop [e] pairs).head?.map Cust.start =
        pairs.head?.map fun p => max p.1 e) ∧
      ((simLoop [e] pairs).head?.map Cust.arrival =
        pairs.head?.map Prod.fst) ∧
      List.Chain' (fun x y => y.start = max y.arrival x.finish)
        (simLoop [e] pairs) := by
  intro pairs
  induction pairs with
  | nil => intro e _ _; simp [simLoop]
  | cons p rest ih =>
    intro e he hps
    obtain ⟨a, sv⟩ := p
    have hpa : Cent a := (hps (a, sv) (by simp)).1
    have hpsv : Cent sv := (hps (a, sv) (by simp)).2
    have hpick : pickServer [e] = (0, e) := rfl
    have hstartc : Cent (max a e) := cent_max hpa he
    have hendc : Cent (max a e + sv) := cent_add hstartc hpsv
    have hunfold : simLoop [e] ((a, sv) :: rest) =
        (simStep [e] a sv).1 :: simLoop (simStep [e] a sv).2 rest := rfl
    have hr0start : (simStep [e] a sv).1.start = max a e := roundTo_cent hstartc
    have hr0finish : (simStep [e] a sv).1.finish = max a e + sv :=
      roundTo_cent hendc
    have hr0server : (simStep [e] a sv).1.server = 1 := rfl
    have hr0arrival : (simStep [e] a sv).1.arrival = a := rfl
    have hends2 : (simStep [e] a sv).2 = [max a e + sv] := rfl
    obtain ⟨ihmap, ihstart, iharr, ihchain⟩ := ih (max a e + sv) hendc
      (fun q hq => hps q (List.mem_cons_of_mem _ hq))
    rw [hunfold, hends2]
    refine ⟨?_, ?_, ?_, ?_⟩
    · simp only [List.map_cons, hr0server, List.length_cons]
      rw [ihmap, List.replicate_succ]
    · simp [hr0start]
    · simp [hr0arrival]
    · rw [List.chain'_cons']
      constructor
      · intro y hy
        rw [Option.mem_def] at hy
        have hs1 := ihstart
        have hs2 := iharr
        rw [hy] at hs1 hs2
        cases hh : rest.head? with
        | none => rw [hh] at hs1; simp at hs1
        | some p =>
          rw [hh] at hs1 hs2
          simp only [Option.map_some'] at hs1 hs2
          have h1 : y.start = max p.1 (max a e + sv) := Option.some.inj hs1
          have h2 : y.arrival = p.1 := Option.some.inj hs2
          rw [h1, h2, hr0finish]
      · exact ihchain

/-! ### Claim theorems -/

/-- Claim C2: for inputs of the shape the validated pipeline produces
(non-negative two-decimal gaps and service times, at least one server),
every customer record returned by `simulateQueue` satisfies: arrival
times are monotonically non-decreasing, `startTime ≥ arrivalTime`,
`endTime = startTime + serviceTime` exactly, `waitTime ≥ 0`, and
`turnaroundTime = waitTime + serviceTime`. -/
theorem simulateQueue_record_invariants (inter svc : List ℝ) (c : ℕ)
    (hc : 1 ≤ c)
    (hg : ∀ g ∈ inter.tail, 0 ≤ g ∧ Cent g)
    (hs : ∀ s ∈ svc, 0 ≤ s ∧ Cent s) :
    List.Chain' (· ≤ ·) (simulateQueue inter svc c).arrivalTimes ∧
    ∀ r ∈ simCusts inter svc c,
      r.arrival ≤ r.start ∧ r.finish = r.start + r.service ∧
      0 ≤ r.wait ∧ r.turnaround = r.wait + r.service := by
  constructor
  · show List.Chain' (· ≤ ·) (arrivalTimesOf inter)
    unfold arrivalTimesOf
    have hch := arrivalsAux_chain inter.tail 0 fun g hgm => (hg g hgm).1
    rwa [roundTo_zero] at hch
  · have hne : List.replicate c (0 : ℝ) ≠ [] := by
      intro hcon
      have := congrArg List.length hcon
      simp at this
      omega
    have hce : ∀ e ∈ List.replicate c (0 : ℝ), Cent e := by
      intro e he
      rw [List.eq_of_mem_replicate he]
      exact cent_zero
    have hps : ∀ p ∈ (arrivalTimesOf inter).zip svc,
        Cent p.1 ∧ Cent p.2 ∧ 0 ≤ p.2 := by
      rintro ⟨x, y⟩ hp
      obtain ⟨hx, hy⟩ := List.of_mem_zip hp
      exact ⟨arrivalTimes_cent inter x hx, (hs y hy).2, (hs y hy).1⟩
    obtain ⟨hmem, _⟩ := simLoop_spec ((arrivalTimesOf inter).zip svc)
      (List.replicate c 0) hne hce hps
    intro r hr
    obtain ⟨⟨q1, q2, q3, q4, _, _, _, _, _⟩, _⟩ := hmem r hr
    exact ⟨q2, q1, q3, q4⟩

/-- Witness for C2 at the concrete input
`inter = [0, 1]`, `svc = [2, 3]`, `c = 1`. -/
theorem simulateQueue_record_invariants_witness :
    (1 : ℕ) ≤ 1 ∧
    (List.Chain' (· ≤ ·) (simulateQueue [0, 1] [2, 3] 1).arrivalTimes ∧
    ∀ r ∈ simCusts [0, 1] [2, 3] 1,
      r.arrival ≤ r.start ∧ r.finish = r.start + r.service ∧
      0 ≤ r.wait ∧ r.turnaround = r.wait + r.service) := by
  refine ⟨le_refl 1, simulateQueue_record_invariants [0, 1] [2, 3] 1 (le_refl 1)
    ?_ ?_⟩
  · intro g hgm
    simp only [List.tail_cons, List.mem_singleton] at hgm
    subst hgm
    exact ⟨by norm_num, ⟨100, by norm_num⟩⟩
  · intro s hsm
    rcases List.mem_cons.mp hsm with rfl | hsm
    · exact ⟨by norm_num, ⟨200, by norm_num⟩⟩
    · rcases List.mem_singleton.mp hsm with rfl
      exact ⟨by norm_num, ⟨300, by norm_num⟩⟩

/-- Claim C3: for at least one server and pipeline-shaped inputs, at
every instant `t` the number of records whose service interval
`[startTime, endTime)` contains `t` never exceeds the server count; and
the dispatch rule picks the server with the smallest next-available
time, a strictly earlier end time being required to displace the
current (lower-indexed) candidate. -/
theorem simulateQueue_capacity_bound (inter svc : List ℝ) (c : ℕ)
    (hc : 1 ≤ c)
    (hg : ∀ g ∈ inter.tail, 0 ≤ g ∧ Cent g)
    (hs : ∀ s ∈ svc, 0 ≤ s ∧ Cent s) :
    (∀ t : ℝ, ((simCusts inter svc c).filter fun r =>
      decide (r.start ≤ t ∧ t < r.finish)).length ≤ c) ∧
    (∀ ends : List ℝ, ends ≠ [] →
      (pickServer ends).1 < ends.length ∧
      (∀ j, j < ends.length → (pickServer ends).2 ≤ ends.getD j 0) ∧
      (∀ j, j < (pickServer ends).1 →
        (pickServer ends).2 < ends.getD j 0)) := by
  constructor
  · have hne : List.replicate c (0 : ℝ) ≠ [] := by
      intro hcon
      have := congrArg List.length hcon
      simp at this
      omega
    have hce : ∀ e ∈ List.replicate c (0 : ℝ), Cent e := by
      intro e he
      rw [List.eq_of_mem_replicate he]
      exact cent_zero
    have hps : ∀ p ∈ (arrivalTimesOf inter).zip svc,
        Cent p.1 ∧ Cent p.2 ∧ 0 ≤ p.2 := by
      rintro ⟨x, y⟩ hp
      obtain ⟨hx, hy⟩ := List.of_mem_zip hp
      exact ⟨arrivalTimes_cent inter x hx, (hs y hy).2, (hs y hy).1⟩
    obtain ⟨hmem, hpw⟩ := simLoop_spec ((arrivalTimesOf inter).zip svc)
      (List.replicate c 0) hne hce hps
    intro t
    have hfsub : (((simCusts inter svc c).filter fun r =>
        decide (r.start ≤ t ∧ t < r.finish))).Sublist
        (simCusts inter svc c) := List.filter_sublist _
    have hfpw := List.Pairwise.sublist hfsub hpw
    have hneq : (((simCusts inter svc c).filter fun r =>
        decide (r.start ≤ t ∧ t < r.finish))).Pairwise
        (fun a b => a.server ≠ b.server) := by
      refine hfpw.imp_of_mem ?_
      intro x y hx hy hxy heq
      have hx2 := of_decide_eq_true (List.mem_filter.mp hx).2
      have hy2 := of_decide_eq_true (List.mem_filter.mp hy).2
      have := hxy heq
      linarith [hx2.1, hx2.2, hy2.1, hy2.2]
    have hnodup : ((((simCusts inter svc c).filter fun r =>
        decide (r.start ≤ t ∧ t < r.finish))).map Cust.server).Nodup :=
      List.pairwise_map.mpr hneq
    have hsubset : ((((simCusts inter svc c).filter fun r =>
        decide (r.start ≤ t ∧ t < r.finish))).map Cust.server).toFinset ⊆
        Finset.Icc 1 c := by
      intro s hsm
      rw [List.mem_toFinset] at hsm
      obtain ⟨r, hrf, rfl⟩ := List.mem_map.mp hsm
      obtain ⟨⟨_, _, _, _, _, h6, h7, _, _⟩, _⟩ :=
        hmem r (hfsub.subset hrf)
      rw [Finset.mem_Icc]
      refine ⟨h6, ?_⟩
      rw [List.length_replicate] at h7
      exact h7
    calc ((simCusts inter svc c).filter fun r =>
          decide (r.start ≤ t ∧ t < r.finish)).length
        = ((((simCusts inter svc c).filter fun r =>
          decide (r.start ≤ t ∧ t < r.finish))).map Cust.server).length := by
          rw [List.length_map]
      _ = ((((simCusts inter svc c).filter fun r =>
          decide (r.start ≤ t ∧ t < r.finish))).map
          Cust.server).toFinset.card :=
          (List.toFinset_card_of_nodup hnodup).symm
      _ ≤ (Finset.Icc 1 c).card := Finset.card_le_card hsubset
      _ = c := by rw [Nat.card_Icc]; omega
  · intro ends hne
    obtain ⟨h1, _, h3, h4⟩ := pickServer_spec ends hne
    exact ⟨h1, h3, h4⟩

/-- Witness for C3 at the concrete input `inter = [0]`, `svc = [1]`,
`c = 1`, instant `t = 0`, and dispatch list `[5]`. -/
theorem simulateQueue_capacity_bound_witness :
    ((simCusts [0] [(1 : ℝ)] 1).filter fun r =>
      decide (r.start ≤ (0 : ℝ) ∧ (0 : ℝ) < r.finish)).length ≤ 1 ∧
    (pickServer [(5 : ℝ)]).1 < 1 := by
  have h := simulateQueue_capacity_bound [0] [(1 : ℝ)] 1 (le_refl 1)
    (by intro g hgm; simp at hgm)
    (by
      intro s hsm
      rcases List.mem_singleton.mp hsm with rfl
      exact ⟨by norm_num, ⟨100, by norm_num⟩⟩)
  refine ⟨h.1 0, ?_⟩
  have h2 := h.2 [(5 : ℝ)] (by simp)
  simpa using h2.1

/-- Claim C4 counterexample: a record set with `totalCustomers = 0` is
not reachable from `simulateQueue` for any input whatsoever, because
the arrival-time array is unconditionally seeded with the time-0
arrival. -/
theorem simulateQueue_zero_customers_unreachable :
    ¬ ∃ (inter svc : List ℝ) (c : ℕ),
      (simulateQueue inter svc c).totalCustomers = 0 := by
  rintro ⟨inter, svc, c, h⟩
  have : (simulateQueue inter svc c).totalCustomers =
      (arrivalTimesOf inter).length := rfl
  rw [this] at h
  unfold arrivalTimesOf at h
  simp at h

/-- Claim C4 amended: `totalCustomers` is always at least 1; for a
horizon shorter than the first sampled gap the generated inter-arrival
sequence degenerates to `[0]` and the simulation returns exactly one
customer record (the time-0 arrival) — a valid degenerate result, not
an error. -/
theorem simulateQueue_degenerate_single_customer (svc : List ℝ) (c : ℕ)
    (mean maxTime : ℝ) (us : ℕ → ℝ)
    (h1 : 0 < maxTime)
    (h2 : maxTime < sampleGap (cpCalc mean).1 (cpCalc mean).2 (us 0)) :
    (∀ (inter0 svc0 : List ℝ) (c0 : ℕ),
      1 ≤ (simulateQueue inter0 svc0 c0).totalCustomers) ∧
    generateInterarrivals mean maxTime us = [0] ∧
    (simulateQueue (generateInterarrivals mean maxTime us) svc
      c).totalCustomers = 1 := by
  have hmain : ∀ (inter0 svc0 : List ℝ) (c0 : ℕ),
      1 ≤ (simulateQueue inter0 svc0 c0).totalCustomers := by
    intro inter0 svc0 c0
    have : (simulateQueue inter0 svc0 c0).totalCustomers =
        (arrivalTimesOf inter0).length := rfl
    rw [this]
    unfold arrivalTimesOf
    simp
  have hgen : generateInterarrivals mean maxTime us = [0] := by
    have hg1 : genGaps (cpCalc mean).1 (cpCalc mean).2 us maxTime 0 0 =
        sampleGap (cpCalc mean).1 (cpCalc mean).2 (us 0) ::
          genGaps (cpCalc mean).1 (cpCalc mean).2 us maxTime
            (0 + sampleGap (cpCalc mean).1 (cpCalc mean).2 (us 0)) 1 :=
      genGaps_of_lt h1
    have hg2 : genGaps (cpCalc mean).1 (cpCalc mean).2 us maxTime
        (0 + sampleGap (cpCalc mean).1 (cpCalc mean).2 (us 0)) 1 = [] :=
      genGaps_of_not_lt (by
        rw [zero_add]
        exact not_lt.mpr (le_of_lt h2))
    have hbody : generateInterarrivals mean maxTime us =
        (if maxTime <
            (genGaps (cpCalc mean).1 (cpCalc mean).2 us maxTime 0 0).sum
         then ((0 : ℝ) ::
            genGaps (cpCalc mean).1 (cpCalc mean).2 us maxTime 0 0).dropLast
         else ((0 : ℝ) ::
            genGaps (cpCalc mean).1 (cpCalc mean).2 us maxTime 0 0)) := rfl
    rw [hbody, hg1, hg2, if_pos (by simpa using h2)]
    rfl
  refine ⟨hmain, hgen, ?_⟩
  rw [hgen]
  rfl

/-- Witness for the amended C4 at `mean = 1`, `maxTime = 1/2`, the
constant-zero draw stream, `svc = []`, `c = 1`; the horizon `1/2` is
below every possible gap since gaps are at least 1. -/
theorem simulateQueue_degenerate_single_customer_witness :
    generateInterarrivals 1 (1 / 2) (fun _ => 0) = [0] ∧
    (simulateQueue (generateInterarrivals 1 (1 / 2) (fun _ => 0)) []
      1).totalCustomers = 1 := by
  have h := simulateQueue_degenerate_single_customer [] 1 1 (1 / 2)
    (fun _ => 0) (by norm_num)
    (lt_of_lt_of_le (by norm_num)
      (one_le_sampleGap (cpCalc 1).1 (cpCalc 1).2 0))
  exact ⟨h.2.1, h.2.2⟩

/-- Claim C5: the queue-length trace returned by `simulateQueue` is
identically zero, for every input: the count of busy servers is bounded
by the number of servers, and the server count is subtracted before
flooring at zero. -/
theorem simulateQueue_queueLengths_zero (inter svc : List ℝ) (c : ℕ)
    (hc : 1 ≤ c) :
    (simulateQueue inter svc c).queueLengths =
      List.replicate (simCusts inter svc c).length (0 : ℝ) := by
  have h : (simulateQueue inter svc c).queueLengths =
      (simCusts inter svc c).map Cust.qlen := rfl
  rw [h, List.eq_replicate_iff]
  refine ⟨List.length_map .., ?_⟩
  intro b hb
  obtain ⟨r, hr, rfl⟩ := List.mem_map.mp hb
  exact simLoop_qlen _ _ r hr

/-- Witness for C5 at the concrete input `inter = [0]`, `svc = [1]`,
`c = 1`. -/
theorem simulateQueue_queueLengths_zero_witness :
    (1 : ℕ) ≤ 1 ∧
    (simulateQueue [0] [(1 : ℝ)] 1).queueLengths =
      List.replicate (simCusts [0] [(1 : ℝ)] 1).length (0 : ℝ) :=
  ⟨le_refl 1, simulateQueue_queueLengths_zero [0] [(1 : ℝ)] 1 (le_refl 1)⟩

/-- Claim C9: with a single server the simulation reduces to FIFO:
every record is assigned server 1, the first customer starts at its own
arrival time, and every later customer starts at the maximum of its
arrival time and the previous customer's end time. -/
theorem simulateQueue_single_server_fifo (inter svc : List ℝ)
    (hg : ∀ g ∈ inter.tail, 0 ≤ g ∧ Cent g)
    (hs : ∀ s ∈ svc, 0 ≤ s ∧ Cent s) :
    (simulateQueue inter svc 1).servers =
      List.replicate ((arrivalTimesOf inter).zip svc).length 1 ∧
    ((simCusts inter svc 1).head?.map Cust.start =
      (simCusts inter svc 1).head?.map Cust.arrival) ∧
    List.Chain' (fun x y => y.start = max y.arrival x.finish)
      (simCusts inter svc 1) := by
  have hps : ∀ p ∈ (arrivalTimesOf inter).zip svc, Cent p.1 ∧ Cent p.2 := by
    rintro ⟨x, y⟩ hp
    obtain ⟨hx, hy⟩ := List.of_mem_zip hp
    exact ⟨arrivalTimes_cent inter x hx, (hs y hy).2⟩
  have hrepl : List.replicate 1 (0 : ℝ) = [0] := rfl
  obtain ⟨hmap, hstart, harr, hchain⟩ :=
    simLoop_single ((arrivalTimesOf inter).zip svc) 0 cent_zero hps
  have hcusts : simCusts inter svc 1 =
      simLoop [0] ((arrivalTimesOf inter).zip svc) := by
    unfold simCusts
    rw [hrepl]
  refine ⟨?_, ?_, ?_⟩
  · show (simCusts inter svc 1).map Cust.server = _
    rw [hcusts, hmap]
  · rw [hcusts, hstart, harr]
    cases hz : ((arrivalTimesOf inter).zip svc).head? with
    | none => simp
    | some p =>
      simp only [Option.map_some']
      have hp1 : p.1 = 0 := by
        cases hsv : svc with
        | nil => rw [hsv] at hz; simp [List.zip] at hz
        | cons s0 rest =>
          rw [hsv] at hz
          unfold arrivalTimesOf at hz
          simp only [List.zip_cons_cons, List.head?_cons,
            Option.some.injEq] at hz
          rw [← hz]
      rw [hp1]
      simp
  · rw [hcusts]
    exact hchain

/-- Witness for C9 at the concrete input `inter = [0, 1]`,
`svc = [1, 2]`. -/
theorem simulateQueue_single_server_fifo_witness :
    (simulateQueue [0, 1] [1, 2] 1).servers =
      List.replicate ((arrivalTimesOf [0, 1]).zip [(1 : ℝ), 2]).length 1 ∧
    ((simCusts [0, 1] [1, 2] 1).head?.map Cust.start =
      (simCusts [0, 1] [1, 2] 1).head?.map Cust.arrival) ∧
    List.Chain' (fun x y => y.start = max y.arrival x.finish)
      (simCusts [0, 1] [1, 2] 1) := by
  refine simulateQueue_single_server_fifo [0, 1] [1, 2] ?_ ?_
  · intro g hgm
    simp only [List.tail_cons, List.mem_singleton] at hgm
    subst hgm
    exact ⟨by norm_num, ⟨100, by norm_num⟩⟩
  · intro s hsm
    rcases List.mem_cons.mp hsm with rfl | hsm
    · exact ⟨by norm_num, ⟨100, by norm_num⟩⟩
    · rcases List.mem_singleton.mp hsm with rfl
      exact ⟨by norm_num, ⟨200, by norm_num⟩⟩

lemma sum_dropLast_le : ∀ (l : List ℝ), (∀ x ∈ l, 0 ≤ x) →
    l.dropLast.sum ≤ l.sum := by
  intro l
  induction l with
  | nil => intro _; simp
  | cons x xs ih =>
    intro h
    cases xs with
    | nil =>
      simpa using h x (by simp)
    | cons y ys =>
      rw [List.dropLast_cons_of_ne_nil (by simp)]
      simp only [List.sum_cons]
      have hih := ih fun z hz => h z (List.mem_cons_of_mem _ hz)
      simp only [List.sum_cons] at hih
      linarith

/-- Claim C10: for positive mean and horizon, the generated
inter-arrival sequence starts with 0, every subsequent gap is an
integer at least 1, the cumulative sums (with and without the final
element) stay within the horizon — the final overshooting gap having
been popped — and a uniform draw falling in no table interval yields
the default gap 1. -/
theorem generateInterarrivals_invariants (mean maxTime : ℝ) (us : ℕ → ℝ)
    (hm : 0 < mean) (hT : 0 < maxTime) :
    (generateInterarrivals mean maxTime us).head? = some 0 ∧
    (∀ g ∈ (generateInterarrivals mean maxTime us).tail,
      1 ≤ g ∧ ∃ n : ℕ, g = (n : ℝ)) ∧
    (generateInterarrivals mean maxTime us).dropLast.sum ≤ maxTime ∧
    (generateInterarrivals mean maxTime us).sum ≤ maxTime ∧
    (∀ u : ℝ,
      (∀ i, i < (cpCalc mean).2.length → i < (cpCalc mean).1.length →
        ¬ ((cpCalc mean).2.getD i 0 ≤ u ∧ u < (cpCalc mean).1.getD i 0)) →
      sampleGap (cpCalc mean).1 (cpCalc mean).2 u = 1) := by
  obtain ⟨hmem, hsumOr⟩ := genGaps_spec (cpCalc mean).1 (cpCalc mean).2 us
    maxTime (Int.ceil (maxTime - 0)).toNat 0 0 (le_refl _)
  have hbody : generateInterarrivals mean maxTime us =
      (if maxTime <
          (genGaps (cpCalc mean).1 (cpCalc mean).2 us maxTime 0 0).sum
       then ((0 : ℝ) ::
          genGaps (cpCalc mean).1 (cpCalc mean).2 us maxTime 0 0).dropLast
       else ((0 : ℝ) ::
          genGaps (cpCalc mean).1 (cpCalc mean).2 us maxTime 0 0)) := rfl
  have hnn : ∀ x ∈ genGaps (cpCalc mean).1 (cpCalc mean).2 us maxTime 0 0,
      0 ≤ x := fun x hx => le_trans zero_le_one (hmem x hx).1
  refine ⟨?_, ?_, ?_, ?_, fun u hu => sampleGapAux_default u _ _ 0 hu⟩
  · rw [hbody]
    by_cases hpop : maxTime <
        (genGaps (cpCalc mean).1 (cpCalc mean).2 us maxTime 0 0).sum
    · rw [if_pos hpop]
      have hne : genGaps (cpCalc mean).1 (cpCalc mean).2 us maxTime 0 0 ≠
          [] := by
        intro hc
        rw [hc] at hpop
        simp at hpop
        linarith
      rw [List.dropLast_cons_of_ne_nil hne]
      simp
    · rw [if_neg hpop]
      simp
  · rw [hbody]
    by_cases hpop : maxTime <
        (genGaps (cpCalc mean).1 (cpCalc mean).2 us maxTime 0 0).sum
    · rw [if_pos hpop]
      have hne : genGaps (cpCalc mean).1 (cpCalc mean).2 us maxTime 0 0 ≠
          [] := by
        intro hc
        rw [hc] at hpop
        simp at hpop
        linarith
      rw [List.dropLast_cons_of_ne_nil hne]
      intro g hgm
      simp only [List.tail_cons] at hgm
      exact hmem g ((List.dropLast_sublist _).subset hgm)
    · rw [if_neg hpop]
      intro g hgm
      simp only [List.tail_cons] at hgm
      exact hmem g hgm
  · rw [hbody]
    by_cases hpop : maxTime <
        (genGaps (cpCalc mean).1 (cpCalc mean).2 us maxTime 0 0).sum
    · rw [if_pos hpop]
      have hne : genGaps (cpCalc mean).1 (cpCalc mean).2 us maxTime 0 0 ≠
          [] := by
        intro hc
        rw [hc] at hpop
        simp at hpop
        linarith
      rcases hsumOr with hc | hlt
      · exact absurd hc hne
      · rw [List.dropLast_cons_of_ne_nil hne]
        have h1 : ((0 : ℝ) ::
            (genGaps (cpCalc mean).1 (cpCalc mean).2 us maxTime
              0 0).dropLast).dropLast.sum ≤
            ((0 : ℝ) :: (genGaps (cpCalc mean).1 (cpCalc mean).2 us maxTime
              0 0).dropLast).sum := by
          apply sum_dropLast_le
          intro x hx
          rcases List.mem_cons.mp hx with rfl | hx
          · exact le_refl 0
          · exact hnn x ((List.dropLast_sublist _).subset hx)
        simp only [List.sum_cons] at h1 ⊢
        linarith
    · rw [if_neg hpop]
      have h1 : ((0 : ℝ) ::
          genGaps (cpCalc mean).1 (cpCalc mean).2 us maxTime
            0 0).dropLast.sum ≤
          ((0 : ℝ) :: genGaps (cpCalc mean).1 (cpCalc mean).2 us maxTime
            0 0).sum := by
        apply sum_dropLast_le
        intro x hx
        rcases List.mem_cons.mp hx with rfl | hx
        · exact le_refl 0
        · exact hnn x hx
      simp only [List.sum_cons] at h1
      push_neg at hpop
      linarith
  · rw [hbody]
    by_cases hpop : maxTime <
        (genGaps (cpCalc mean).1 (cpCalc mean).2 us maxTime 0 0).sum
    · rw [if_pos hpop]
      have hne : genGaps (cpCalc mean).1 (cpCalc mean).2 us maxTime 0 0 ≠
          [] := by
        intro hc
        rw [hc] at hpop
        simp at hpop
        linarith
      rcases hsumOr with hc | hlt
      · exact absurd hc hne
      · rw [List.dropLast_cons_of_ne_nil hne]
        simp only [List.sum_cons]
        linarith
    · rw [if_neg hpop]
      push_neg at hpop
      simp only [List.sum_cons]
      linarith

/-- Witness for C10 at `mean = 1`, `maxTime = 1`, constant-zero draw
stream. -/
theorem generateInterarrivals_invariants_witness :
    (generateInterarrivals 1 1 (fun _ => 0)).head? = some 0 ∧
    (∀ g ∈ (generateInterarrivals 1 1 (fun _ => 0)).tail,
      1 ≤ g ∧ ∃ n : ℕ, g = (n : ℝ)) ∧
    (generateInterarrivals 1 1 (fun _ => 0)).dropLast.sum ≤ 1 ∧
    (generateInterarrivals 1 1 (fun _ => 0)).sum ≤ 1 ∧
    (∀ u : ℝ,
      (∀ i, i < (cpCalc 1).2.length → i < (cpCalc 1).1.length →
        ¬ ((cpCalc 1).2.getD i 0 ≤ u ∧ u < (cpCalc 1).1.getD i 0)) →
      sampleGap (cpCalc 1).1 (cpCalc 1).2 u = 1) :=
  generateInterarrivals_invariants 1 1 (fun _ => 0) (by norm_num)
    (by norm_num)

lemma erlangSumLoop_eq (r : ℝ) : ∀ c : ℕ,
    erlangSumLoop r c = ∑ n ∈ Finset.range c, r ^ n / (Nat.factorial n : ℝ) := by
  intro c
  induction c with
  | zero => simp [erlangSumLoop]
  | succ m ih =>
    have h1 : erlangSumLoop r (m + 1) =
        erlangSumLoop r m + r ^ m / (Nat.factorial m : ℝ) := by
      unfold erlangSumLoop
      rw [List.range_succ, List.foldl_append]
      rfl
    rw [h1, ih, Finset.sum_range_succ]

/-- Claim C6: the multi-server Erlang-C calculator computes the
standard formulas — `p0` as the reciprocal of the truncated exponential
sum plus the saturation term, `Lq` from `p0`, then `Wq = Lq/λ`,
`Ws = Wq + 1/μ`, `Ls = λ·Ws` — and at `λ = 1, μ = 1, c = 2` it yields
`ρ = 1/2`, `p0 = 1/3` and `Lq = 1/3`. -/
theorem erlangC_formulas (lambda mu : ℝ) (c : ℕ) :
    ((calculateMultiServerParams lambda mu c).rho = lambda / (c * mu) ∧
     (calculateMultiServerParams lambda mu c).p0 =
       1 / (∑ n ∈ Finset.range c, (lambda / mu) ^ n / (Nat.factorial n : ℝ) +
         (lambda / mu) ^ c /
           ((Nat.factorial c : ℝ) * (1 - lambda / (c * mu)))) ∧
     (calculateMultiServerParams lambda mu c).lq =
       ((calculateMultiServerParams lambda mu c).p0 * (lambda / mu) ^ c *
         (lambda / (c * mu))) /
         ((Nat.factorial c : ℝ) * (1 - lambda / (c * mu)) ^ 2) ∧
     (calculateMultiServerParams lambda mu c).wq =
       (calculateMultiServerParams lambda mu c).lq / lambda ∧
     (calculateMultiServerParams lambda mu c).ws =
       (calculateMultiServerParams lambda mu c).wq + 1 / mu ∧
     (calculateMultiServerParams lambda mu c).ls =
       lambda * (calculateMultiServerParams lambda mu c).ws) ∧
    ((calculateMultiServerParams 1 1 2).rho = 1 / 2 ∧
     (calculateMultiServerParams 1 1 2).p0 = 1 / 3 ∧
     (calculateMultiServerParams 1 1 2).lq = 1 / 3) := by
  constructor
  · refine ⟨rfl, ?_, rfl, rfl, rfl, rfl⟩
    show 1 / (erlangSumLoop (lambda / mu) c + _) = _
    rw [erlangSumLoop_eq]
  · norm_num [calculateMultiServerParams, erlangSumLoop, List.range_succ,
      Nat.factorial]

/-- Claim C7: the M/M/1 calculator computes `ρ = λ/μ`,
`Lq = ρ²/(1−ρ)`, `Wq = Lq/λ`, `Ws = Wq + 1/μ`, `Ls = λ·Ws`, and at
`λ = 1/2, μ = 1` (mean inter-arrival 2, mean service 1) it yields
`ρ = 0.5`, `Lq = 0.5`, `Wq = 1`, `Ws = 2`, `Ls = 1`. -/
theorem mm1_formulas (lambda mu : ℝ) :
    ((calculateMM1Params lambda mu).rho = lambda / mu ∧
     (calculateMM1Params lambda mu).lq =
       (lambda / mu) ^ 2 / (1 - lambda / mu) ∧
     (calculateMM1Params lambda mu).wq =
       (calculateMM1Params lambda mu).lq / lambda ∧
     (calculateMM1Params lambda mu).ws =
       (calculateMM1Params lambda mu).wq + 1 / mu ∧
     (calculateMM1Params lambda mu).ls =
       lambda * (calculateMM1Params lambda mu).ws) ∧
    ((calculateMM1Params (1 / 2) 1).rho = 1 / 2 ∧
     (calculateMM1Params (1 / 2) 1).lq = 1 / 2 ∧
     (calculateMM1Params (1 / 2) 1).wq = 1 ∧
     (calculateMM1Params (1 / 2) 1).ws = 2 ∧
     (calculateMM1Params (1 / 2) 1).ls = 1) := by
  constructor
  · exact ⟨rfl, rfl, rfl, rfl, rfl⟩
  · norm_num [calculateMM1Params]

/-- Claim C8: the M/G/c calculator's `Wq` is the M/M/c `Wq` for the
same `λ`, `μ = 1/meanServiceTime`, `c`, scaled by `(1 + Cs²)/2` with
`Cs² = 1/shapeK`, and `Lq = λ·Wq`, `Ws = Wq + meanServiceTime`,
`Ls = λ·Ws` are derived from that scaled `Wq`. -/
theorem mgc_allen_cunneen (lambda serviceMeanTime : ℝ) (c : ℕ)
    (shapeK : ℝ) (hc : 2 ≤ c) (hk : (0.1 : ℝ) ≤ shapeK)
    (hrho : lambda / (c * (1 / serviceMeanTime)) < 1) :
    (calculateMGCParams lambda serviceMeanTime c shapeK).wq =
      (calculateMMcParams lambda (1 / serviceMeanTime) c).wq *
        ((1 + 1 / shapeK) / 2) ∧
    (calculateMGCParams lambda serviceMeanTime c shapeK).lq =
      lambda * (calculateMGCParams lambda serviceMeanTime c shapeK).wq ∧
    (calculateMGCParams lambda serviceMeanTime c shapeK).ws =
      (calculateMGCParams lambda serviceMeanTime c shapeK).wq +
        serviceMeanTime ∧
    (calculateMGCParams lambda serviceMeanTime c shapeK).ls =
      lambda * (calculateMGCParams lambda serviceMeanTime c shapeK).ws ∧
    (calculateMGCParams lambda serviceMeanTime c shapeK).csSquared =
      1 / shapeK :=
  ⟨rfl, rfl, rfl, rfl, rfl⟩

/-- Witness for C8 at `λ = 1`, `meanServiceTime = 1/2`, `c = 2`,
`shapeK = 1` (utilization `1/4 < 1`). -/
theorem mgc_allen_cunneen_witness :
    (calculateMGCParams 1 (1 / 2) 2 1).wq =
      (calculateMMcParams 1 (1 / (1 / 2)) 2).wq * ((1 + 1 / 1) / 2) ∧
    (calculateMGCParams 1 (1 / 2) 2 1).lq =
      1 * (calculateMGCParams 1 (1 / 2) 2 1).wq ∧
    (calculateMGCParams 1 (1 / 2) 2 1).ws =
      (calculateMGCParams 1 (1 / 2) 2 1).wq + 1 / 2 ∧
    (calculateMGCParams 1 (1 / 2) 2 1).ls =
      1 * (calculateMGCParams 1 (1 / 2) 2 1).ws ∧
    (calculateMGCParams 1 (1 / 2) 2 1).csSquared = 1 / 1 :=
  mgc_allen_cunneen 1 (1 / 2) 2 1 (le_refl 2) (by norm_num) (by norm_num)

/-! ### The cumulative-probability table -/

lemma poissonBelow_zero (m : ℝ) : poissonBelow m 0 = 0 := by
  simp [poissonBelow]

lemma poissonBelow_succ (m : ℝ) (k : ℕ) :
    poissonBelow m (k + 1) = poissonBelow m k + poissonTerm m k :=
  Finset.sum_range_succ _ _

lemma poissonBelow_eq_mul (m : ℝ) (k : ℕ) :
    poissonBelow m k =
      Real.exp (-m) * ∑ i ∈ Finset.range k, m ^ i / (Nat.factorial i : ℝ) := by
  unfold poissonBelow poissonTerm
  rw [Finset.mul_sum]
  exact Finset.sum_congr rfl fun i _ => mul_div_assoc _ _ _

lemma poissonBelow_le_one {m : ℝ} (hm : 0 ≤ m) (k : ℕ) :
    poissonBelow m k ≤ 1 := by
  rw [poissonBelow_eq_mul]
  have h1 := Real.sum_le_exp_of_nonneg hm k
  have h2 : (0 : ℝ) ≤ Real.exp (-m) := le_of_lt (Real.exp_pos _)
  calc Real.exp (-m) * ∑ i ∈ Finset.range k, m ^ i / (Nat.factorial i : ℝ)
      ≤ Real.exp (-m) * Real.exp m := mul_le_mul_of_nonneg_left h1 h2
    _ = 1 := by rw [← Real.exp_add]; simp

lemma cpCalcGo_of_lt {m cp : ℝ} {count : ℕ}
    (h : cp < 0.9999 ∧ count < 200) :
    cpCalcGo m cp count =
      (min (cp + poissonTerm m count) 1 ::
        (cpCalcGo m (cp + poissonTerm m count) (count + 1)).1,
       cp :: (cpCalcGo m (cp + poissonTerm m count) (count + 1)).2) := by
  rw [cpCalcGo, dif_pos h]

lemma cpCalcGo_of_not {m cp : ℝ} {count : ℕ}
    (h : ¬ (cp < 0.9999 ∧ count < 200)) :
    cpCalcGo m cp count = ([], []) := by
  rw [cpCalcGo, dif_neg h]

lemma cpCalcGo_spec (m : ℝ) (hm : 0 ≤ m) :
    ∀ (fuel count : ℕ), count + fuel = 200 →
      ((cpCalcGo m (poissonBelow m count) count).1.length =
        (cpCalcGo m (poissonBelow m count) count).2.length) ∧
      count + (cpCalcGo m (poissonBelow m count) count).1.length ≤ 200 ∧
      (∀ k, k < (cpCalcGo m (poissonBelow m count) count).1.length →
        (cpCalcGo m (poissonBelow m count) count).2.getD k 0 =
          poissonBelow m (count + k)) ∧
      (∀ k, k < (cpCalcGo m (poissonBelow m count) count).1.length →
        (cpCalcGo m (poissonBelow m count) count).1.getD k 0 =
          poissonBelow m (count + k + 1)) ∧
      (∀ k, k < (cpCalcGo m (poissonBelow m count) count).1.length →
        poissonBelow m (count + k) < 0.9999) ∧
      (0.9999 ≤ poissonBelow m
          (count + (cpCalcGo m (poissonBelow m count) count).1.length) ∨
        count + (cpCalcGo m (poissonBelow m count) count).1.length = 200) := by
  intro fuel
  induction fuel with
  | zero =>
    intro count hcount
    have h200 : count = 200 := by omega
    have hno : ¬ (poissonBelow m count < 0.9999 ∧ count < 200) := by
      rintro ⟨_, hc⟩
      omega
    rw [cpCalcGo_of_not hno]
    subst h200
    simp
  | succ F ih =>
    intro count hcount
    by_cases hcp : poissonBelow m count < 0.9999
    · have hcond : poissonBelow m count < 0.9999 ∧ count < 200 :=
        ⟨hcp, by omega⟩
      rw [cpCalcGo_of_lt hcond]
      have hsucc : poissonBelow m count + poissonTerm m count =
          poissonBelow m (count + 1) := (poissonBelow_succ m count).symm
      rw [hsucc]
      have hmin : min (poissonBelow m (count + 1)) 1 =
          poissonBelow m (count + 1) :=
        min_eq_left (poissonBelow_le_one hm _)
      rw [hmin]
      obtain ⟨ih1, ih2, ih3, ih4, ih5, ih6⟩ := ih (count + 1) (by omega)
      refine ⟨?_, ?_, ?_, ?_, ?_, ?_⟩
      · simp only [List.length_cons, ih1]
      · simp only [List.length_cons]
        omega
      · intro k hk
        cases k with
        | zero => simp
        | succ k2 =>
          simp only [List.length_cons] at hk
          simp only [List.getD_cons_succ]
          rw [ih3 k2 (by omega)]
          congr 1
          omega
      · intro k hk
        cases k with
        | zero => simp
        | succ k2 =>
          simp only [List.length_cons] at hk
          simp only [List.getD_cons_succ]
          rw [ih4 k2 (by omega)]
          congr 1
          omega
      · intro k hk
        cases k with
        | zero => simpa using hcp
        | succ k2 =>
          simp only [List.length_cons] at hk
          have h5 := ih5 k2 (by omega)
          have harg : count + 1 + k2 = count + (k2 + 1) := by omega
          rwa [harg] at h5
      · simp only [List.length_cons]
        rcases ih6 with h | h
        · left
          have harg : count + 1 +
              (cpCalcGo m (poissonBelow m (count + 1)) (count + 1)).1.length =
              count + ((cpCalcGo m (poissonBelow m (count + 1))
                (count + 1)).1.length + 1) := by omega
          rwa [harg] at h
        · right
          omega
    · have hno : ¬ (poissonBelow m count < 0.9999 ∧ count < 200) := by
        rintro ⟨h1, _⟩
        exact hcp h1
      rw [cpCalcGo_of_not hno]
      refine ⟨rfl, ?_, ?_, ?_, ?_, ?_⟩
      · simp only [List.length_nil]
        omega
      · intro k hk
        simp at hk
      · intro k hk
        simp at hk
      · intro k hk
        simp at hk
      · left
        simpa using not_lt.mp hcp

/-- Claim C1 counterexample: the table built by `cpCalc` for
`meanInterarrivalTime = 2` does not match the Poisson law with rate
`1/2 = 1/meanInterarrivalTime` that the specification describes — its
first cumulative entry is `exp (-2)`, not `exp (-1/2)`. -/
theorem cpCalc_rate_counterexample :
    (cpCalc 2).1.getD 0 0 ≠ poissonBelow (1 / 2) 1 := by
  have hcond : (0 : ℝ) < 0.9999 ∧ (0 : ℕ) < 200 := ⟨by norm_num, by norm_num⟩
  have hunfold : cpCalc 2 = cpCalcGo 2 0 0 := rfl
  rw [hunfold, cpCalcGo_of_lt hcond]
  simp only [List.getD_cons_zero]
  have ht : (0 : ℝ) + poissonTerm 2 0 = Real.exp (-2) := by
    simp [poissonTerm]
  rw [ht]
  have hmin : min (Real.exp (-2)) 1 = Real.exp (-2) :=
    min_eq_left (Real.exp_le_one_iff.mpr (by norm_num))
  rw [hmin]
  have hrhs : poissonBelow (1 / 2) 1 = Real.exp (-(1 / 2)) := by
    simp [poissonBelow, poissonTerm]
  rw [hrhs]
  intro hc
  have heq := Real.exp_eq_exp.mp hc
  norm_num at heq

/-- Claim C1 as amended: for every positive `meanInterarrivalTime`, the
table built by `cpCalc` is the cumulative table of the Poisson law with
rate `meanInterarrivalTime` itself (not its reciprocal): entry `k`
holds the pair `[P(X<k), P(X≤k)]`, both lists have the same length,
every entry is produced while the cumulative probability is still below
`0.9999`, and construction stops at the first count whose cumulative
probability reaches `0.9999` or at the hard cap of 200 entries. -/
theorem cpCalc_poisson_table (m : ℝ) (hm : 0 < m) :
    ((cpCalc m).1.length = (cpCalc m).2.length) ∧
    0 < (cpCalc m).1.length ∧
    (cpCalc m).1.length ≤ 200 ∧
    (∀ k, k < (cpCalc m).1.length →
      (cpCalc m).2.getD k 0 = poissonBelow m k) ∧
    (∀ k, k < (cpCalc m).1.length →
      (cpCalc m).1.getD k 0 = poissonBelow m (k + 1)) ∧
    (∀ k, k < (cpCalc m).1.length → poissonBelow m k < 0.9999) ∧
    (0.9999 ≤ poissonBelow m ((cpCalc m).1.length) ∨
      (cpCalc m).1.length = 200) := by
  have hmain := cpCalcGo_spec m (le_of_lt hm) 200 0 (by omega)
  rw [poissonBelow_zero] at hmain
  have hcp : cpCalc m = cpCalcGo m 0 0 := rfl
  rw [← hcp] at hmain
  simp only [Nat.zero_add] at hmain
  obtain ⟨h1, h2, h3, h4, h5, h6⟩ := hmain
  have hpos : 0 < (cpCalc m).1.length := by
    by_contra hz
    push_neg at hz
    interval_cases hlen : (cpCalc m).1.length
    rcases h6 with h | h
    · rw [poissonBelow_zero] at h
      norm_num at h
    · omega
  exact ⟨h1, hpos, h2, h3, h4, h5, h6⟩

/-- Witness for the amended C1 at `meanInterarrivalTime = 2`. -/
theorem cpCalc_poisson_table_witness :
    ((cpCalc 2).1.length = (cpCalc 2).2.length) ∧
    0 < (cpCalc 2).1.length ∧
    (cpCalc 2).1.length ≤ 200 ∧
    (∀ k, k < (cpCalc 2).1.length →
      (cpCalc 2).2.getD k 0 = poissonBelow 2 k) ∧
    (∀ k, k < (cpCalc 2).1.length →
      (cpCalc 2).1.getD k 0 = poissonBelow 2 (k + 1)) ∧
    (∀ k, k < (cpCalc 2).1.length → poissonBelow 2 k < 0.9999) ∧
    (0.9999 ≤ poissonBelow 2 ((cpCalc 2).1.length) ∨
      (cpCalc 2).1.length = 200) :=
  cpCalc_poisson_table 2 (by norm_num)

end Simulation
